import Mathlib

/-!
Verification of the per-shard update+search pipeline of a vector search
engine (qdrant), as implemented in
`lib/collection/src/shard/local_shard_operations.rs` and
`lib/collection/src/segment_manager/fixtures.rs`.

The embedding is shallow: each Rust function relevant to the claims is
translated into an executable Lean definition over explicit state.
Components of the repository that are outside the provided sources
(the WAL internals, the update handler, the segments searcher, the
segment black box) are modelled from the specification where a claim
needs them; each such definition carries a doc comment starting with
`Modelled from the spec:`.
-/

namespace QdrantShard

/-- Point identifiers (`ExtendedPointId`); modelled as naturals. -/
abbrev PointId := Nat

/-- WAL operation numbers (`u64`); modelled as naturals. -/
abbrev OpNum := Nat

/-- `SegmentType` from `segment::types`. -/
inductive SegmentType where
  | plain
  | indexed
  | special
  deriving DecidableEq, Repr

/-- The part of a segment's `info()` result consumed by
`ShardOperation::info`: type, vector count, point count and the
payload-index schema (keys mapped to an opaque index description,
modelled as `Nat`). -/
structure SegmentInfo where
  segment_type : SegmentType
  num_vectors : Nat
  num_points : Nat
  index_schema : List (String × Nat)
  deriving Repr

/-- `LockedSegment`, restricted to what `info()` reads from it: an
`Original` segment exposes its own info; a `Proxy` exposes its own
(proxy-level) info and the info of the wrapped segment. -/
inductive LockedSegmentInfo where
  | original (info : SegmentInfo)
  | proxy (proxyInfo : SegmentInfo) (wrappedInfo : SegmentInfo)
  deriving Repr

/-- The info reported for an entry: its own `info()` for an original
segment, the proxy-level `info()` for a proxy (the value bound to
`segment_info` in the Rust `match`). -/
def reportedInfo : LockedSegmentInfo → SegmentInfo
  | .original i => i
  | .proxy pi _ => pi

/-- The info examined by the indexed-vector counting branch: the
segment's own info for an original, the wrapped segment's info for a
proxy (`wrapped_info` in the Rust source). -/
def examinedInfo : LockedSegmentInfo → SegmentInfo
  | .original i => i
  | .proxy _ wi => wi

/-- `CollectionStatus`. -/
inductive CollectionStatus where
  | green
  | yellow
  | red
  deriving DecidableEq, Repr

/-- `OptimizersStatus`. -/
inductive OptimizersStatus where
  | ok
  | error (msg : String)
  deriving DecidableEq, Repr

/-- Health fields of the segment holder read by `info()`:
the `failed_operation` set (modelled as the list of failed op numbers)
and the optional optimizer error. -/
structure HolderHealth where
  failed_operation : List OpNum
  optimizer_errors : Option String

/-- Insert a key/value pair into an association-list schema,
overwriting an existing binding for the key (the `HashMap::insert`
of the Rust loop). -/
def schemaInsert (schema : List (String × Nat)) (key : String) (val : Nat) :
    List (String × Nat) :=
  (schema.filter (fun kv => kv.1 ≠ key)) ++ [(key, val)]

/-- Accumulator of the `for` loop in `ShardOperation::info`. -/
structure InfoAcc where
  vectors_count : Nat
  indexed_vectors_count : Nat
  points_count : Nat
  segments_count : Nat
  status : CollectionStatus
  schema : List (String × Nat)

/-- One iteration of the `for (_idx, segment) in segments.iter()` loop of
`ShardOperation::info`. -/
def infoStep (acc : InfoAcc) (seg : LockedSegmentInfo) : InfoAcc :=
  let exam := examinedInfo seg
  let segment_info := reportedInfo seg
  { vectors_count := acc.vectors_count + segment_info.num_vectors
    indexed_vectors_count := acc.indexed_vectors_count +
      (if exam.segment_type = SegmentType.indexed then exam.num_vectors else 0)
    points_count := acc.points_count + segment_info.num_points
    segments_count := acc.segments_count + 1
    status := if segment_info.segment_type = SegmentType.special then
        CollectionStatus.yellow
      else acc.status
    schema := segment_info.index_schema.foldl
      (fun s kv => schemaInsert s kv.1 kv.2) acc.schema }

/-- The `CollectionInfo` fields produced by `ShardOperation::info`
(the collection config is opaque and omitted). -/
structure CollectionInfoM where
  status : CollectionStatus
  optimizer_status : OptimizersStatus
  vectors_count : Nat
  indexed_vectors_count : Nat
  points_count : Nat
  segments_count : Nat
  payload_schema : List (String × Nat)

/-- `ShardOperation::info` for `LocalShard`: folds the loop over the
holder's segments starting from all-zero counters and `Green` status,
then applies the red override and computes the optimizer status. -/
def shardInfo (segs : List LockedSegmentInfo) (health : HolderHealth) :
    CollectionInfoM :=
  let acc := segs.foldl infoStep
    { vectors_count := 0, indexed_vectors_count := 0, points_count := 0
      segments_count := 0, status := CollectionStatus.green, schema := [] }
  let status := if !health.failed_operation.isEmpty ||
      health.optimizer_errors.isSome then
      CollectionStatus.red
    else acc.status
  let optimizer_status := match health.optimizer_errors with
    | none => OptimizersStatus.ok
    | some e => OptimizersStatus.error e
  { status := status
    optimizer_status := optimizer_status
    vectors_count := acc.vectors_count
    indexed_vectors_count := acc.indexed_vectors_count
    points_count := acc.points_count
    segments_count := acc.segments_count
    payload_schema := acc.schema }

/-- The status of the loop accumulator after folding: `yellow` as soon as
some segment reports `Special`, otherwise whatever the initial status
was. -/
theorem infoLoop_status (segs : List LockedSegmentInfo) (acc : InfoAcc) :
    (segs.foldl infoStep acc).status =
      if segs.any (fun s => (reportedInfo s).segment_type = SegmentType.special)
      then CollectionStatus.yellow
      else acc.status := by
  induction segs generalizing acc with
  | nil => simp
  | cons s rest ih =>
    simp only [List.foldl_cons, List.any_cons, ih]
    by_cases hs : (reportedInfo s).segment_type = SegmentType.special
    · by_cases hr :
        rest.any (fun s => (reportedInfo s).segment_type = SegmentType.special)
      · simp [hs, hr]
      · simp [hs, hr, infoStep]
    · simp [hs, infoStep]

/-- The indexed-vector counter after folding: the initial value plus the
contribution of each examined segment info of type `Indexed`. -/
theorem infoLoop_indexed (segs : List LockedSegmentInfo) (acc : InfoAcc) :
    (segs.foldl infoStep acc).indexed_vectors_count =
      acc.indexed_vectors_count +
        (((segs.map examinedInfo).filter
            (fun i => i.segment_type = SegmentType.indexed)).map
          SegmentInfo.num_vectors).sum := by
  induction segs generalizing acc with
  | nil => simp
  | cons s rest ih =>
    simp only [List.foldl_cons, List.map_cons, ih]
    by_cases hs : (examinedInfo s).segment_type = SegmentType.indexed
    · simp [hs, infoStep, Nat.add_assoc]
    · simp [hs, infoStep]

/-- C4: `info()` returns status `Red` exactly when the holder records a
failed operation or an optimizer error, regardless of segment types;
otherwise `Yellow` exactly when some segment reports type `Special`;
otherwise `Green`. -/
theorem info_status_spec (segs : List LockedSegmentInfo)
    (health : HolderHealth) :
    (shardInfo segs health).status =
      if !health.failed_operation.isEmpty || health.optimizer_errors.isSome
      then CollectionStatus.red
      else if segs.any
          (fun s => (reportedInfo s).segment_type = SegmentType.special)
        then CollectionStatus.yellow
        else CollectionStatus.green := by
  simp only [shardInfo, infoLoop_status]

/-- C5: the `indexed_vectors_count` returned by `info()` is the sum of
`num_vectors` over exactly the examined segment infos of type `Indexed`
(the segment's own info for an original segment, the wrapped segment's
info for a proxy); all other segments contribute nothing. -/
theorem info_indexed_vectors_spec (segs : List LockedSegmentInfo)
    (health : HolderHealth) :
    (shardInfo segs health).indexed_vectors_count =
      (((segs.map examinedInfo).filter
          (fun i => i.segment_type = SegmentType.indexed)).map
        SegmentInfo.num_vectors).sum := by
  simp [shardInfo, infoLoop_indexed]

/-! ### The update path (`ShardOperation::update`) -/

/-- Errors surfaced by the update path. -/
inductive CollectionError where
  | backPressure
  | walIo
  | application (msg : String)
  | badInput (msg : String)
  deriving DecidableEq, Repr

/-- `UpdateStatus`. -/
inductive UpdateStatus where
  | acknowledged
  | completed
  deriving DecidableEq, Repr

/-- `UpdateResult`. -/
structure UpdateResult where
  operation_id : OpNum
  status : UpdateStatus
  deriving DecidableEq, Repr

/-- Modelled from the spec: the WAL is an append-only numbered log whose
`write` assigns the next monotonically increasing operation number.
Only the number counter matters to the claims. -/
structure WalModel where
  nextOpNum : OpNum

/-- Observable steps taken by `ShardOperation::update`, in program
order: acquiring the reservation permit on the update queue, writing
the operation to the WAL (with the op number the write assigned), and
sending the `UpdateSignal::Operation` through the permit. -/
inductive UpdateEvent where
  | permitAcquired
  | walWrite (opNum : OpNum)
  | sendSignal (opNum : OpNum)
  deriving DecidableEq, Repr

/-- The environment an update run interacts with: whether the queue
reservation succeeds (back-pressure otherwise), whether the WAL write
succeeds, and — when a callback was registered — the application
outcome delivered through the oneshot channel. -/
structure UpdateEnv where
  permit : Except CollectionError Unit
  walWriteOk : Except CollectionError Unit
  callback : Except CollectionError Unit

/-- `ShardOperation::update` for `LocalShard`: reserve a permit on the
update queue, write the operation to the WAL obtaining `operation_id`,
send the update signal through the permit, then either await the
callback (`wait = true`, status `Completed`) or return immediately
(`wait = false`, status `Acknowledged`). Besides the result, it
returns the trace of observable steps and the WAL state after the
run. -/
def shardUpdate (wal : WalModel) (env : UpdateEnv) (wait : Bool) :
    Except CollectionError UpdateResult × List UpdateEvent × WalModel :=
  match env.permit with
  | .error e => (.error e, [], wal)
  | .ok _ =>
    match env.walWriteOk with
    | .error e => (.error e, [UpdateEvent.permitAcquired], wal)
    | .ok _ =>
      let operation_id := wal.nextOpNum
      let wal' : WalModel := { nextOpNum := operation_id + 1 }
      let events := [UpdateEvent.permitAcquired,
        UpdateEvent.walWrite operation_id, UpdateEvent.sendSignal operation_id]
      if wait then
        match env.callback with
        | .error e => (.error e, events, wal')
        | .ok _ =>
          (.ok { operation_id := operation_id, status := UpdateStatus.completed },
            events, wal')
      else
        (.ok { operation_id := operation_id, status := UpdateStatus.acknowledged },
          events, wal')

/-- C1: whenever `update` succeeds, the returned `operation_id` is
exactly the op number assigned by the WAL write of this run (the one
recorded in the trace's `walWrite` event); with `wait = true` the
callback has resolved successfully and the status is `Completed`, and
with `wait = false` the status is `Acknowledged`. -/
theorem update_result_spec (wal : WalModel) (env : UpdateEnv) (wait : Bool)
    (r : UpdateResult)
    (h : (shardUpdate wal env wait).1 = .ok r) :
    r.operation_id = wal.nextOpNum ∧
      UpdateEvent.walWrite r.operation_id ∈ (shardUpdate wal env wait).2.1 ∧
      (wait = true → env.callback = .ok () ∧ r.status = UpdateStatus.completed) ∧
      (wait = false → r.status = UpdateStatus.acknowledged) := by
  unfold shardUpdate at *
  rcases env with ⟨permit, walOk, callback⟩
  cases permit with
  | error e => simp at h
  | ok u =>
    cases walOk with
    | error e => simp at h
    | ok u' =>
      cases wait with
      | false =>
        simp at h
        simp [← h]
      | true =>
        cases callback with
        | error e => simp at h
        | ok u'' =>
          simp at h
          simp [← h]

/-- C1 witness: a concrete successful waited run returns op number 7
with status `Completed`. -/
theorem update_result_spec_witness :
    (7 : Nat) = ({ nextOpNum := 7 } : WalModel).nextOpNum ∧
      UpdateEvent.walWrite 7 ∈
        (shardUpdate { nextOpNum := 7 }
          { permit := .ok (), walWriteOk := .ok (), callback := .ok () }
          true).2.1 ∧
      ((true : Bool) = true →
        (Except.ok () : Except CollectionError Unit) = .ok () ∧
          UpdateStatus.completed = UpdateStatus.completed) ∧
      ((true : Bool) = false →
        UpdateStatus.completed = UpdateStatus.acknowledged) := by
  have h := update_result_spec { nextOpNum := 7 }
    { permit := .ok (), walWriteOk := .ok (), callback := .ok () } true
    { operation_id := 7, status := UpdateStatus.completed } rfl
  exact h

/-- The trace of an update run is one of three shapes: nothing (the
reservation failed), permit only (the WAL write failed), or the full
permit/WAL-write/send sequence. -/
theorem shardUpdate_events (wal : WalModel) (env : UpdateEnv) (wait : Bool) :
    (shardUpdate wal env wait).2.1 = [] ∨
      (shardUpdate wal env wait).2.1 = [UpdateEvent.permitAcquired] ∨
      (shardUpdate wal env wait).2.1 =
        [UpdateEvent.permitAcquired, UpdateEvent.walWrite wal.nextOpNum,
          UpdateEvent.sendSignal wal.nextOpNum] := by
  unfold shardUpdate
  rcases env with ⟨permit, walOk, callback⟩
  cases permit with
  | error e => simp
  | ok u =>
    cases walOk with
    | error e => simp
    | ok u' =>
      cases wait with
      | false => simp
      | true => cases callback <;> simp

/-- C2: in every trace of `update`, a WAL write only ever happens after
the queue reservation permit was acquired: wherever the trace splits
around a `walWrite` event, `permitAcquired` is in the front part. -/
theorem update_permit_before_wal (wal : WalModel) (env : UpdateEnv)
    (wait : Bool) (front back : List UpdateEvent) (n : OpNum)
    (h : (shardUpdate wal env wait).2.1 =
      front ++ UpdateEvent.walWrite n :: back) :
    UpdateEvent.permitAcquired ∈ front := by
  rcases shardUpdate_events wal env wait with he | he | he
  · rw [he] at h
    exact absurd h.symm (List.append_ne_nil_of_right_ne_nil front (by simp))
  · rw [he] at h
    have hmem : UpdateEvent.walWrite n ∈ [UpdateEvent.permitAcquired] := by
      rw [h]; simp
    simp at hmem
  · rw [he] at h
    cases front with
    | nil => simp at h
    | cons a as =>
      rw [List.cons_append] at h
      have ha : a = UpdateEvent.permitAcquired :=
        ((List.cons.injEq _ _ _ _ ▸ h).1).symm
      simp [ha]

/-- C2 witness: in the concrete successful run, the trace splits with
`permitAcquired` in front of the WAL write. -/
theorem update_permit_before_wal_witness :
    UpdateEvent.permitAcquired ∈ [UpdateEvent.permitAcquired] := by
  have h := update_permit_before_wal { nextOpNum := 3 }
    { permit := .ok (), walWriteOk := .ok (), callback := .ok () } false
    [UpdateEvent.permitAcquired] [UpdateEvent.sendSignal 3] 3 rfl
  exact h

/-- C3: if the WAL write fails (the permit itself having been granted),
`update` returns the WAL error to the caller and the trace contains no
`sendSignal` event: the operation is never handed to the update
handler. -/
theorem update_wal_failure_no_signal (wal : WalModel) (env : UpdateEnv)
    (wait : Bool) (e : CollectionError)
    (hp : env.permit = .ok ())
    (hw : env.walWriteOk = .error e) :
    (shardUpdate wal env wait).1 = .error e ∧
      ∀ n, UpdateEvent.sendSignal n ∉ (shardUpdate wal env wait).2.1 := by
  rcases env with ⟨permit, walOk, callback⟩
  subst hp hw
  unfold shardUpdate
  simp

/-- C3 witness: a concrete run whose WAL write fails returns the error
and sends no signal. -/
theorem update_wal_failure_no_signal_witness :
    (Except.ok () : Except CollectionError Unit) = .ok () ∧
      (Except.error CollectionError.walIo : Except CollectionError Unit) =
        .error CollectionError.walIo ∧
      (shardUpdate { nextOpNum := 5 }
          { permit := .ok (), walWriteOk := .error CollectionError.walIo,
            callback := .ok () } true).1 = .error CollectionError.walIo ∧
      ∀ n, UpdateEvent.sendSignal n ∉
        (shardUpdate { nextOpNum := 5 }
          { permit := .ok (), walWriteOk := .error CollectionError.walIo,
            callback := .ok () } true).2.1 := by
  refine ⟨rfl, rfl, ?_⟩
  exact update_wal_failure_no_signal { nextOpNum := 5 }
    { permit := .ok (), walWriteOk := .error CollectionError.walIo,
      callback := .ok () } true CollectionError.walIo rfl rfl

/-! ### The search path (`ShardOperation::search`) -/

/-- `ScoredPoint`, with scores modelled as integers (the claims are
independent of the score arithmetic). -/
structure ScoredPoint where
  id : PointId
  version : OpNum
  score : Int
  deriving DecidableEq, Repr

/-- Modelled from the spec: the distance contract — a monotone
`postprocess_score` transform and a `check_threshold` predicate. The
distance type itself lives outside the provided sources. -/
structure DistanceModel where
  postprocess_score : Int → Int
  check_threshold : Int → Int → Bool

/-- One entry of a `SearchRequestBatch`: the named vector it searches
and the optional score threshold. -/
structure SearchRequestM where
  vectorName : String
  score_threshold : Option Int

/-- Collection params: the configured named vectors, each with its
distance. -/
structure CollectionParamsM where
  vectors : List (String × DistanceModel)

/-- `CollectionParams::get_vector_params`: look up the params of a named
vector, failing with a bad-input error when the name is unknown. -/
def get_vector_params (params : CollectionParamsM) (name : String) :
    Except CollectionError DistanceModel :=
  match params.vectors.find? (fun kv => kv.1 == name) with
  | some kv => .ok kv.2
  | none => .error (.badInput name)

/-- The `for req in &request.searches { get_vector_params(..)? }`
validation loop at the top of `ShardOperation::search`: stops at the
first unknown vector name. -/
def validateVectorNames (params : CollectionParamsM) :
    List SearchRequestM → Except CollectionError Unit
  | [] => .ok ()
  | req :: rest =>
    match get_vector_params params req.vectorName with
    | .error e => .error e
    | .ok _ => validateVectorNames params rest

/-- The per-request closure of `ShardOperation::search` (the body of
the `map` over `res.zip(request.searches)`): post-process every score
with the distance's `postprocess_score`, then, when the request carries
a threshold, keep results while `check_threshold` holds. -/
def processSearchResult (distance : DistanceModel) (req : SearchRequestM)
    (vector_res : List ScoredPoint) : List ScoredPoint :=
  let processed := vector_res.map
    (fun sp => { sp with score := distance.postprocess_score sp.score })
  match req.score_threshold with
  | some threshold =>
    processed.takeWhile (fun sp => distance.check_threshold sp.score threshold)
  | none => processed

/-- Observable step of the search path: a fan-out to the per-segment
searcher. -/
inductive SearchEvent where
  | segmentSearch
  deriving DecidableEq, Repr

/-- `ShardOperation::search`: validate every vector name of the batch,
then fan out to the segments searcher (whose merged raw per-request
results are the `mergedRaw` input, one list per request) and
post-process each request's results. The second component records
whether the per-segment search ran. The inner `.error` branch is
unreachable: validation has already succeeded (the Rust code uses
`unwrap()` there). -/
def shardSearch (params : CollectionParamsM) (reqs : List SearchRequestM)
    (mergedRaw : List (List ScoredPoint)) :
    Except CollectionError (List (List ScoredPoint)) × List SearchEvent :=
  match validateVectorNames params reqs with
  | .error e => (.error e, [])
  | .ok _ =>
    let top := (mergedRaw.zip reqs).map
      (fun vr =>
        match get_vector_params params vr.2.vectorName with
        | .ok d => processSearchResult d vr.2 vr.1
        | .error _ => [])
    (.ok top, [SearchEvent.segmentSearch])

/-- Any initial segment of a list all of whose members satisfy `p` is no
longer than `takeWhile p`. -/
theorem length_takeWhile_ge_of_take (p : α → Bool) (l : List α) (n : Nat)
    (hn : n ≤ l.length) (hall : ∀ x ∈ l.take n, p x = true) :
    n ≤ (l.takeWhile p).length := by
  induction l generalizing n with
  | nil => simpa using hn
  | cons a l ih =>
    cases n with
    | zero => simp
    | succ m =>
      have hpa : p a = true := hall a (by simp)
      have hrec : m ≤ (l.takeWhile p).length := by
        refine ih m (by simpa using hn) ?_
        intro x hx
        exact hall x (by simp [hx])
      simp [List.takeWhile_cons, hpa, Nat.succ_le_succ hrec]

/-- If the validation loop succeeds, every request's vector name
resolves. -/
theorem validateVectorNames_ok (params : CollectionParamsM)
    (reqs : List SearchRequestM)
    (h : validateVectorNames params reqs = .ok ()) :
    ∀ req ∈ reqs, ∃ d, get_vector_params params req.vectorName = .ok d := by
  induction reqs with
  | nil => intro req hreq; cases hreq
  | cons r rest ih =>
    intro req hreq
    unfold validateVectorNames at h
    rcases hr : get_vector_params params r.vectorName with e | d
    · rw [hr] at h; cases h
    · rw [hr] at h
      rcases List.mem_cons.mp hreq with h1 | h2
      · exact ⟨d, h1 ▸ hr⟩
      · exact ih h req h2

/-- A successful `shardSearch` returns, for each position of the batch,
exactly the post-processing closure applied to that request and its
merged raw results. -/
theorem shardSearch_ok_results (params : CollectionParamsM)
    (reqs : List SearchRequestM) (mergedRaw : List (List ScoredPoint))
    (results : List (List ScoredPoint))
    (hok : (shardSearch params reqs mergedRaw).1 = .ok results) :
    ∀ k, (hk : k < results.length) →
      ∃ (hr : k < mergedRaw.length) (hq : k < reqs.length)
        (d : DistanceModel),
        get_vector_params params (reqs.get ⟨k, hq⟩).vectorName = .ok d ∧
        results.get ⟨k, hk⟩ =
          processSearchResult d (reqs.get ⟨k, hq⟩)
            (mergedRaw.get ⟨k, hr⟩) := by
  unfold shardSearch at hok
  rcases hval : validateVectorNames params reqs with e | u
  · rw [hval] at hok; cases hok
  · rw [hval] at hok
    have hres : results = (mergedRaw.zip reqs).map
        (fun vr =>
          match get_vector_params params vr.2.vectorName with
          | .ok d => processSearchResult d vr.2 vr.1
          | .error _ => []) := by
      cases hok; rfl
    intro k hk
    have hkz : k < (mergedRaw.zip reqs).length := by
      rw [hres, List.length_map] at hk
      exact hk
    have hkm : k < min mergedRaw.length reqs.length := by
      rw [← List.length_zip mergedRaw reqs]
      exact hkz
    have hr : k < mergedRaw.length := lt_of_lt_of_le hkm (min_le_left _ _)
    have hq : k < reqs.length := lt_of_lt_of_le hkm (min_le_right _ _)
    refine ⟨hr, hq, ?_⟩
    obtain ⟨d, hd⟩ := validateVectorNames_ok params reqs (by cases u; exact hval)
      (reqs.get ⟨k, hq⟩) (List.get_mem reqs k hq)
    refine ⟨d, hd, ?_⟩
    have hzip : (mergedRaw.zip reqs).get ⟨k, hkz⟩ =
        (mergedRaw.get ⟨k, hr⟩, reqs.get ⟨k, hq⟩) := by
      simp [List.getElem_zip]
    have hget : results.get ⟨k, hk⟩ =
        (fun vr : List ScoredPoint × SearchRequestM =>
          match get_vector_params params vr.2.vectorName with
          | .ok d => processSearchResult d vr.2 vr.1
          | .error _ => []) ((mergedRaw.zip reqs).get ⟨k, hkz⟩) := by
      rw [List.get_of_eq hres]
      simp [List.getElem_map]
    rw [hget, hzip]
    simp only [hd]

/-- The per-request post-processing closure of `search` is positionally
the post-processed raw list; with a threshold, every kept score passes
the check, the result is a prefix of the processed list, and no longer
all-passing initial segment exists. -/
theorem processSearchResult_spec (d : DistanceModel) (req : SearchRequestM)
    (raw : List ScoredPoint)
    (processed : List ScoredPoint)
    (hp : processed = raw.map
      (fun sp => { sp with score := d.postprocess_score sp.score })) :
    (∀ i, (h : i < (processSearchResult d req raw).length) →
      ∃ hr : i < raw.length,
        ((processSearchResult d req raw).get ⟨i, h⟩).id =
          (raw.get ⟨i, hr⟩).id ∧
        ((processSearchResult d req raw).get ⟨i, h⟩).score =
          d.postprocess_score (raw.get ⟨i, hr⟩).score) ∧
    (∀ t, req.score_threshold = some t →
      (∀ sp ∈ processSearchResult d req raw,
        d.check_threshold sp.score t = true) ∧
      (∃ rest, processed = processSearchResult d req raw ++ rest) ∧
      (∀ n, n ≤ processed.length →
        (∀ sp ∈ processed.take n, d.check_threshold sp.score t = true) →
        n ≤ (processSearchResult d req raw).length)) := by
  subst hp
  have hpre : ∃ rest,
      raw.map (fun sp => { sp with score := d.postprocess_score sp.score }) =
        processSearchResult d req raw ++ rest := by
    unfold processSearchResult
    cases req.score_threshold with
    | none => exact ⟨[], by simp⟩
    | some t =>
      refine ⟨(raw.map
        (fun sp => { sp with score := d.postprocess_score sp.score })).dropWhile
          (fun sp => d.check_threshold sp.score t), ?_⟩
      simp [List.takeWhile_append_dropWhile]
  refine ⟨?_, ?_⟩
  · intro i h
    obtain ⟨rest, hrest⟩ := hpre
    have hlen : (processSearchResult d req raw).length ≤ raw.length := by
      have := congrArg List.length hrest
      simp at this
      omega
    refine ⟨Nat.lt_of_lt_of_le h hlen, ?_⟩
    have hmap : i < (raw.map
        (fun sp => { sp with score := d.postprocess_score sp.score })).length := by
      simpa using Nat.lt_of_lt_of_le h hlen
    have hi : (raw.map
        (fun sp => { sp with score := d.postprocess_score sp.score })).get
          ⟨i, hmap⟩ = (processSearchResult d req raw).get ⟨i, h⟩ := by
      rw [List.get_of_eq hrest]
      exact List.get_append i h
    have hval : (raw.map
        (fun sp => { sp with score := d.postprocess_score sp.score })).get
          ⟨i, hmap⟩ =
        { raw.get ⟨i, Nat.lt_of_lt_of_le h hlen⟩ with
            score := d.postprocess_score
              (raw.get ⟨i, Nat.lt_of_lt_of_le h hlen⟩).score } := by
      simp [List.get_map]
    rw [← hi, hval]
    exact ⟨rfl, rfl⟩
  · intro t ht
    refine ⟨?_, hpre, ?_⟩
    · intro sp hsp
      simp only [processSearchResult, ht] at hsp
      have hcheck := List.mem_takeWhile_imp hsp
      exact hcheck
    · intro n hn hall
      simp only [processSearchResult, ht]
      exact length_takeWhile_ge_of_take _ _ n (by simpa using hn) hall

/-- C7: in a successful `shardSearch` batch, each request's returned
list is exactly the post-processing closure of that request's merged
raw results under the request's configured distance; that closure is
positionally the post-processed merged raw list (each returned point
keeps its id and carries `postprocess_score` of its merged raw score),
and when the request carries a `score_threshold`, every returned score
passes `check_threshold`, the returned list is a prefix of the
post-processed list, and it is the longest prefix on which the check
holds (truncation happens at the first failure). -/
theorem search_postprocess_spec (params : CollectionParamsM)
    (reqs : List SearchRequestM) (mergedRaw : List (List ScoredPoint))
    (results : List (List ScoredPoint))
    (hok : (shardSearch params reqs mergedRaw).1 = .ok results) :
    ∀ k, (hk : k < results.length) →
      ∃ (hr : k < mergedRaw.length) (hq : k < reqs.length)
        (d : DistanceModel),
        get_vector_params params (reqs.get ⟨k, hq⟩).vectorName = .ok d ∧
        results.get ⟨k, hk⟩ =
          processSearchResult d (reqs.get ⟨k, hq⟩) (mergedRaw.get ⟨k, hr⟩) ∧
        (∀ i, (h : i < (processSearchResult d (reqs.get ⟨k, hq⟩)
            (mergedRaw.get ⟨k, hr⟩)).length) →
          ∃ hir : i < (mergedRaw.get ⟨k, hr⟩).length,
            ((processSearchResult d (reqs.get ⟨k, hq⟩)
                (mergedRaw.get ⟨k, hr⟩)).get ⟨i, h⟩).id =
              ((mergedRaw.get ⟨k, hr⟩).get ⟨i, hir⟩).id ∧
            ((processSearchResult d (reqs.get ⟨k, hq⟩)
                (mergedRaw.get ⟨k, hr⟩)).get ⟨i, h⟩).score =
              d.postprocess_score
                ((mergedRaw.get ⟨k, hr⟩).get ⟨i, hir⟩).score) ∧
        (∀ t, (reqs.get ⟨k, hq⟩).score_threshold = some t →
          (∀ sp ∈ processSearchResult d (reqs.get ⟨k, hq⟩)
              (mergedRaw.get ⟨k, hr⟩),
            d.check_threshold sp.score t = true) ∧
          (∃ rest, (mergedRaw.get ⟨k, hr⟩).map
              (fun sp => { sp with score := d.postprocess_score sp.score }) =
            processSearchResult d (reqs.get ⟨k, hq⟩)
              (mergedRaw.get ⟨k, hr⟩) ++ rest) ∧
          (∀ n, n ≤ ((mergedRaw.get ⟨k, hr⟩).map
              (fun sp =>
                { sp with score := d.postprocess_score sp.score })).length →
            (∀ sp ∈ ((mergedRaw.get ⟨k, hr⟩).map
                (fun sp =>
                  { sp with score := d.postprocess_score sp.score })).take n,
              d.check_threshold sp.score t = true) →
            n ≤ (processSearchResult d (reqs.get ⟨k, hq⟩)
              (mergedRaw.get ⟨k, hr⟩)).length)) := by
  intro k hk
  obtain ⟨hr, hq, d, hd, heq⟩ :=
    shardSearch_ok_results params reqs mergedRaw results hok k hk
  have hps := processSearchResult_spec d (reqs.get ⟨k, hq⟩)
    (mergedRaw.get ⟨k, hr⟩) _ rfl
  exact ⟨hr, hq, d, hd, heq, hps.1, hps.2⟩

/-- Concrete batch for the C7 witness: one vector "v" with doubling
postprocess and a ≥-threshold check. -/
def c7Params : CollectionParamsM :=
  ⟨[("v", ⟨fun s => 2 * s, fun s t => t ≤ s⟩)]⟩

/-- Concrete requests for the C7 witness. -/
def c7Reqs : List SearchRequestM := [⟨"v", some 2⟩]

/-- Concrete merged raw results for the C7 witness. -/
def c7Raw : List (List ScoredPoint) := [[⟨1, 0, 3⟩, ⟨2, 0, 1⟩, ⟨3, 0, 0⟩]]

/-- Expected post-processed results for the C7 witness. -/
def c7Results : List (List ScoredPoint) := [[⟨1, 0, 6⟩, ⟨2, 0, 2⟩]]

/-- C7 witness: the concrete batch succeeds and its only request's
returned list is the post-processing closure of its merged raw list. -/
theorem search_postprocess_spec_witness :
    (shardSearch c7Params c7Reqs c7Raw).1 = .ok c7Results ∧
      (0 : Nat) < c7Results.length ∧
      ∃ (hr : 0 < c7Raw.length) (hq : 0 < c7Reqs.length)
        (d : DistanceModel),
        get_vector_params c7Params ((c7Reqs.get ⟨0, hq⟩).vectorName) =
          .ok d ∧
        c7Results.get ⟨0, Nat.zero_lt_one⟩ =
          processSearchResult d (c7Reqs.get ⟨0, hq⟩)
            (c7Raw.get ⟨0, hr⟩) := by
  refine ⟨rfl, Nat.zero_lt_one, ?_⟩
  obtain ⟨hr, hq, d, hd, heq, _, _⟩ :=
    search_postprocess_spec c7Params c7Reqs c7Raw c7Results rfl 0
      Nat.zero_lt_one
  exact ⟨hr, hq, d, hd, heq⟩

/-- If some request of the batch names an unknown vector, the
validation loop fails. -/
theorem validateVectorNames_error (params : CollectionParamsM)
    (reqs : List SearchRequestM) (req : SearchRequestM)
    (hreq : req ∈ reqs)
    (hbad : ∀ d, get_vector_params params req.vectorName ≠ .ok d) :
    ∃ e, validateVectorNames params reqs = .error e := by
  induction reqs with
  | nil => cases hreq
  | cons r rest ih =>
    unfold validateVectorNames
    cases hr : get_vector_params params r.vectorName with
    | error e => exact ⟨e, rfl⟩
    | ok d =>
      rcases List.mem_cons.mp hreq with h | h
      · exact absurd (h ▸ hr) (hbad d)
      · exact ih h

/-- C10: when any request of the batch names a vector that is not among
the collection's configured vector params, the whole `search` call
fails with an error before any per-segment search runs: the event trace
is empty and no (partial) results are returned. -/
theorem search_validates_names (params : CollectionParamsM)
    (reqs : List SearchRequestM) (mergedRaw : List (List ScoredPoint))
    (req : SearchRequestM) (hreq : req ∈ reqs)
    (hbad : ∀ d, get_vector_params params req.vectorName ≠ .ok d) :
    (∃ e, (shardSearch params reqs mergedRaw).1 = .error e) ∧
      (shardSearch params reqs mergedRaw).2 = [] := by
  obtain ⟨e, he⟩ := validateVectorNames_error params reqs req hreq hbad
  unfold shardSearch
  rw [he]
  exact ⟨⟨e, rfl⟩, rfl⟩

/-- C10 witness: a batch whose second request names the unknown vector
"w" over a collection configured with only "v" fails whole, with no
segment search. -/
theorem search_validates_names_witness :
    (∃ e, (shardSearch ⟨[("v", ⟨id, fun s t => t ≤ s⟩)]⟩
        [⟨"v", none⟩, ⟨"w", none⟩] [[], []]).1 = .error e) ∧
      (shardSearch ⟨[("v", ⟨id, fun s t => t ≤ s⟩)]⟩
        [⟨"v", none⟩, ⟨"w", none⟩] [[], []]).2 = [] := by
  refine search_validates_names _ _ _ ⟨"w", none⟩ (by simp) ?_
  intro d h
  simp [get_vector_params] at h

/-! ### Scroll and count (`ShardOperation::scroll_by`, `ShardOperation::count`) -/

/-- A stored point of a segment: id, version, vector (component values
modelled as integers) and keyword payload. -/
structure StoredPoint where
  id : PointId
  version : OpNum
  vector : List Int
  payload : List (String × List String)
  deriving DecidableEq, Repr

/-- A segment's contents, as visible to filtered reads and retrieval. -/
abbrev SegmentData := List StoredPoint

/-- The ids of a segment's points admitted by the offset bound and the
filter, in storage order. -/
def matchingIds (seg : SegmentData) (offset : Option PointId)
    (filter : Option (StoredPoint → Bool)) : List PointId :=
  (seg.filter (fun p =>
    (match offset with
      | none => true
      | some o => decide (o ≤ p.id)) &&
    (match filter with
      | none => true
      | some f => f p))).map StoredPoint.id

/-- Modelled from the spec: the segment contract's
`read_filtered(offset, limit, filter)` — the ordered list of point ids
matching the filter from the offset id on, truncated to `limit` when
one is given. The segment implementation lives outside the provided
sources. -/
def read_filtered (seg : SegmentData) (offset : Option PointId)
    (limit : Option Nat) (filter : Option (StoredPoint → Bool)) :
    List PointId :=
  let sortedIds := List.insertionSort (· ≤ ·) (matchingIds seg offset filter)
  match limit with
  | none => sortedIds
  | some l => sortedIds.take l

/-- Remove adjacent duplicates (`Itertools::dedup`); on a sorted list
this removes all duplicates. -/
def dedupAdj : List PointId → List PointId
  | [] => []
  | [x] => [x]
  | x :: y :: rest =>
    if x = y then dedupAdj (y :: rest) else x :: dedupAdj (y :: rest)

/-- One step of single-point retrieval: consult one more segment for
the id, preferring the copy with the higher version. -/
def retrieveStep (pid : PointId) (best : Option StoredPoint)
    (seg : SegmentData) : Option StoredPoint :=
  match seg.find? (fun p => p.id == pid) with
  | none => best
  | some p =>
    match best with
    | none => some p
    | some b => if b.version < p.version then some p else some b

/-- Modelled from the spec: `SegmentsSearcher::retrieve` for one id —
ask each segment for the id and keep the copy with the highest version
(the transitional proxy state can hold several copies). -/
def retrieveOne (segs : List SegmentData) (pid : PointId) :
    Option StoredPoint :=
  segs.foldl (retrieveStep pid) none

/-- Modelled from the spec: `SegmentsSearcher::retrieve` over a list of
ids, returning the found points in input order. -/
def retrieveModel (segs : List SegmentData) (ids : List PointId) :
    List StoredPoint :=
  ids.filterMap (retrieveOne segs)

/-- The id list assembled by `scroll_by`: per-segment filtered reads
(each already capped at `limit`), concatenated, sorted, deduplicated
and truncated to `limit`. -/
def scrollIds (segs : List SegmentData) (offset : Option PointId)
    (limit : Nat) (filter : Option (StoredPoint → Bool)) : List PointId :=
  (dedupAdj (List.insertionSort (· ≤ ·)
    (segs.flatMap (fun s => read_filtered s offset (some limit) filter)))).take
    limit

/-- `ShardOperation::scroll_by`: gather the merged id list, retrieve the
corresponding records and sort them by point id. -/
def scroll_by (segs : List SegmentData) (offset : Option PointId)
    (limit : Nat) (filter : Option (StoredPoint → Bool)) :
    List StoredPoint :=
  List.insertionSort (fun a b => a.id ≤ b.id)
    (retrieveModel segs (scrollIds segs offset limit filter))

/-- A segment's cardinality estimate for a filter. -/
structure CardinalityEstimation where
  exp : Nat
  min : Nat
  max : Nat
  deriving DecidableEq, Repr

/-- Modelled from the spec: `LocalShard::read_filtered` — the distinct
matching point ids over all segments of the shard (no offset, no
limit). -/
def shardReadFiltered (segs : List SegmentData)
    (filter : Option (StoredPoint → Bool)) : List PointId :=
  dedupAdj (List.insertionSort (· ≤ ·)
    (segs.flatMap (fun s => read_filtered s none none filter)))

/-- Modelled from the spec: `LocalShard::estimate_cardinality` — each
segment returns an estimate and the searcher sums the components. -/
def shardEstimateCardinality (ests : List CardinalityEstimation) :
    CardinalityEstimation :=
  { exp := (ests.map CardinalityEstimation.exp).sum
    min := (ests.map CardinalityEstimation.min).sum
    max := (ests.map CardinalityEstimation.max).sum }

/-- `CountRequest`: exact flag and filter. -/
structure CountRequestM where
  exact : Bool
  filter : Option (StoredPoint → Bool)

/-- `ShardOperation::count`: with `exact` the length of the shard-level
filtered read, otherwise the `exp` field of the summed cardinality
estimate (`ests` holding the per-segment estimates for the request's
filter). -/
def shardCount (segs : List SegmentData) (ests : List CardinalityEstimation)
    (request : CountRequestM) : Nat :=
  if request.exact then (shardReadFiltered segs request.filter).length
  else (shardEstimateCardinality ests).exp

/-- Adjacent deduplication preserves membership. -/
theorem mem_dedupAdj (l : List PointId) (a : PointId) :
    a ∈ dedupAdj l ↔ a ∈ l := by
  induction l with
  | nil => simp [dedupAdj]
  | cons x rest ih =>
    cases rest with
    | nil => simp [dedupAdj]
    | cons y t =>
      by_cases h : x = y
      · rw [dedupAdj, if_pos h, ih, h]
        simp
      · rw [dedupAdj, if_neg h]
        simp only [List.mem_cons] at ih ⊢
        rw [ih]

/-- Adjacent deduplication of a sorted id list is strictly sorted
(hence duplicate-free). -/
theorem dedupAdj_pairwise_lt (l : List PointId)
    (h : l.Pairwise (· ≤ ·)) : (dedupAdj l).Pairwise (· < ·) := by
  induction l with
  | nil => simp [dedupAdj]
  | cons x rest ih =>
    cases rest with
    | nil => simp [dedupAdj]
    | cons y t =>
      rw [List.pairwise_cons] at h
      obtain ⟨hx, hyt⟩ := h
      by_cases hxy : x = y
      · rw [dedupAdj, if_pos hxy]
        exact ih hyt
      · rw [dedupAdj, if_neg hxy]
        rw [List.pairwise_cons]
        refine ⟨?_, ih hyt⟩
        intro b hb
        have hbmem : b ∈ y :: t := (mem_dedupAdj _ _).1 hb
        have hxltr : x < y :=
          Nat.lt_of_le_of_ne (hx y (by simp)) hxy
        rcases List.mem_cons.mp hbmem with hby | hbt
        · exact hby ▸ hxltr
        · exact Nat.lt_of_lt_of_le hxltr
            ((List.pairwise_cons.mp hyt).1 b hbt)

/-- Every id returned by a segment's filtered read names a point stored
in that segment. -/
theorem read_filtered_present (seg : SegmentData) (offset : Option PointId)
    (limit : Option Nat) (filter : Option (StoredPoint → Bool))
    (pid : PointId) (h : pid ∈ read_filtered seg offset limit filter) :
    ∃ p ∈ seg, p.id = pid := by
  have hsorted : pid ∈ List.insertionSort (· ≤ ·)
      (matchingIds seg offset filter) := by
    unfold read_filtered at h
    cases limit with
    | none => exact h
    | some l => exact List.mem_of_mem_take h
  have hmatch : pid ∈ matchingIds seg offset filter :=
    (List.perm_insertionSort (· ≤ ·) _).mem_iff.mp hsorted
  unfold matchingIds at hmatch
  obtain ⟨p, hp, hpid⟩ := List.mem_map.mp hmatch
  exact ⟨p, List.mem_of_mem_filter hp, hpid⟩

/-- Every id assembled by `scroll_by` names a point stored in some
segment of the holder. -/
theorem scrollIds_present (segs : List SegmentData) (offset : Option PointId)
    (limit : Nat) (filter : Option (StoredPoint → Bool)) (pid : PointId)
    (h : pid ∈ scrollIds segs offset limit filter) :
    ∃ s ∈ segs, ∃ p ∈ s, p.id = pid := by
  unfold scrollIds at h
  have h1 := List.mem_of_mem_take h
  have h2 := (mem_dedupAdj _ _).1 h1
  have h3 := (List.perm_insertionSort (· ≤ ·) _).mem_iff.mp h2
  obtain ⟨s, hs, hpid⟩ := List.mem_flatMap.mp h3
  exact ⟨s, hs, read_filtered_present s offset (some limit) filter pid hpid⟩

/-- The assembled id list of `scroll_by` is strictly sorted. -/
theorem scrollIds_pairwise_lt (segs : List SegmentData)
    (offset : Option PointId) (limit : Nat)
    (filter : Option (StoredPoint → Bool)) :
    (scrollIds segs offset limit filter).Pairwise (· < ·) := by
  unfold scrollIds
  exact (dedupAdj_pairwise_lt _
    (List.sorted_insertionSort (· ≤ ·) _)).sublist (List.take_sublist _ _)

/-- The retrieval step only ever answers with a point carrying the
requested id. -/
theorem retrieveStep_id (pid : PointId) (best : Option StoredPoint)
    (seg : SegmentData) (hbest : ∀ q, best = some q → q.id = pid) :
    ∀ q, retrieveStep pid best seg = some q → q.id = pid := by
  intro q hq
  unfold retrieveStep at hq
  rcases hfind : seg.find? (fun p => p.id == pid) with _ | found
  · rw [hfind] at hq
    exact hbest q hq
  · have hfid : found.id = pid := by
      have h1 := List.find?_some hfind
      simpa using h1
    rw [hfind] at hq
    rcases best with _ | b
    · cases hq; exact hfid
    · have hq' : (if b.version < found.version then some found else some b) =
          some q := hq
      by_cases hv : b.version < found.version
      · rw [if_pos hv] at hq'; cases hq'; exact hfid
      · rw [if_neg hv] at hq'; cases hq'; exact hbest _ rfl

/-- The retrieval step never forgets an already-found point. -/
theorem retrieveStep_isSome (pid : PointId) (best : Option StoredPoint)
    (seg : SegmentData) (hbest : best.isSome = true) :
    (retrieveStep pid best seg).isSome = true := by
  unfold retrieveStep
  rcases hfind : seg.find? (fun p => p.id == pid) with _ | found
  · rw [hfind]
    exact hbest
  · rw [hfind]
    rcases best with _ | b
    · rfl
    · by_cases hv : b.version < found.version
      · simp [hv]
      · simp [hv]

/-- The retrieval step answers when the consulted segment stores the
id. -/
theorem retrieveStep_isSome_of_mem (pid : PointId) (best : Option StoredPoint)
    (seg : SegmentData) (h : ∃ p ∈ seg, p.id = pid) :
    (retrieveStep pid best seg).isSome = true := by
  unfold retrieveStep
  obtain ⟨p, hp, hpid⟩ := h
  have hfound : (seg.find? (fun q => q.id == pid)).isSome = true := by
    rw [List.find?_isSome]
    exact ⟨p, hp, by simp [hpid]⟩
  obtain ⟨found, hfind⟩ := Option.isSome_iff_exists.mp hfound
  rw [hfind]
  rcases best with _ | b
  · rfl
  · by_cases hv : b.version < found.version
    · simp [hv]
    · simp [hv]

/-- The retrieval fold keeps an already-found point through any suffix
of segments. -/
theorem retrieveFold_isSome (segs : List SegmentData) (pid : PointId)
    (init : Option StoredPoint) (hinit : init.isSome = true) :
    (segs.foldl (retrieveStep pid) init).isSome = true := by
  induction segs generalizing init with
  | nil => exact hinit
  | cons s rest ih =>
    rw [List.foldl_cons]
    exact ih _ (retrieveStep_isSome pid init s hinit)

/-- When single-point retrieval answers, the answer carries the
requested id. -/
theorem retrieveOne_id (segs : List SegmentData) (pid : PointId) :
    ∀ p, retrieveOne segs pid = some p → p.id = pid := by
  unfold retrieveOne
  suffices hgen : ∀ (init : Option StoredPoint),
      (∀ q, init = some q → q.id = pid) →
      ∀ p, segs.foldl (retrieveStep pid) init = some p → p.id = pid by
    exact hgen none (by intro q hq; cases hq)
  induction segs with
  | nil => intro init hinit p hp; exact hinit p hp
  | cons s rest ih =>
    intro init hinit p hp
    rw [List.foldl_cons] at hp
    exact ih _ (retrieveStep_id pid init s hinit) p hp

/-- The retrieval fold answers from any start whenever some segment of
the suffix stores the id. -/
theorem retrieveFold_isSome_of_present (segs : List SegmentData)
    (pid : PointId) (init : Option StoredPoint)
    (h : ∃ s ∈ segs, ∃ p ∈ s, p.id = pid) :
    (segs.foldl (retrieveStep pid) init).isSome = true := by
  induction segs generalizing init with
  | nil => obtain ⟨s, hs, _⟩ := h; cases hs
  | cons s0 rest ih =>
    rw [List.foldl_cons]
    obtain ⟨s, hs, hp⟩ := h
    rcases List.mem_cons.mp hs with hs0 | hrest
    · exact retrieveFold_isSome rest pid _
        (retrieveStep_isSome_of_mem pid init s0 (hs0 ▸ hp))
    · exact ih _ ⟨s, hrest, hp⟩

/-- Single-point retrieval answers whenever some segment stores the
id. -/
theorem retrieveOne_isSome (segs : List SegmentData) (pid : PointId)
    (h : ∃ s ∈ segs, ∃ p ∈ s, p.id = pid) :
    (retrieveOne segs pid).isSome = true :=
  retrieveFold_isSome_of_present segs pid none h

/-- Retrieving a list of ids all stored somewhere returns exactly one
record per id, in input order. -/
theorem retrieveModel_map_id (segs : List SegmentData) (ids : List PointId)
    (h : ∀ pid ∈ ids, ∃ s ∈ segs, ∃ p ∈ s, p.id = pid) :
    (retrieveModel segs ids).map StoredPoint.id = ids := by
  induction ids with
  | nil => rfl
  | cons pid rest ih =>
    have hsome : (retrieveOne segs pid).isSome = true :=
      retrieveOne_isSome segs pid (h pid (by simp))
    obtain ⟨p, hp⟩ := Option.isSome_iff_exists.mp hsome
    have hpid : p.id = pid := retrieveOne_id segs pid p hp
    unfold retrieveModel
    rw [List.filterMap_cons, hp]
    simp only [List.map_cons, hpid]
    have := ih (fun q hq => h q (by simp [hq]))
    unfold retrieveModel at this
    rw [this]

/-- The ids of the records returned by `scroll_by` are exactly the
assembled id list. -/
theorem scroll_by_map_id (segs : List SegmentData) (offset : Option PointId)
    (limit : Nat) (filter : Option (StoredPoint → Bool)) :
    (scroll_by segs offset limit filter).map StoredPoint.id =
      scrollIds segs offset limit filter := by
  have hmap : (retrieveModel segs
      (scrollIds segs offset limit filter)).map StoredPoint.id =
      scrollIds segs offset limit filter :=
    retrieveModel_map_id segs _ (scrollIds_present segs offset limit filter)
  have hsorted : (retrieveModel segs
      (scrollIds segs offset limit filter)).Pairwise
        (fun a b => a.id < b.id) := by
    have := scrollIds_pairwise_lt segs offset limit filter
    rw [← hmap] at this
    exact (List.pairwise_map.mp this)
  have heq : scroll_by segs offset limit filter =
      retrieveModel segs (scrollIds segs offset limit filter) := by
    unfold scroll_by
    exact List.Sorted.insertionSort_eq
      (hsorted.imp (fun hab => Nat.le_of_lt hab))
  rw [heq, hmap]

/-- C6: `scroll_by` returns records sorted in strictly ascending point
id order (hence with no duplicate ids), at most `limit` of them, whose
ids are exactly the first `limit` ids of the sorted deduplicated union
of the per-segment filtered reads — and the records are exactly the
retrieval of those ids. -/
theorem scroll_by_spec (segs : List SegmentData) (offset : Option PointId)
    (limit : Nat) (filter : Option (StoredPoint → Bool)) :
    (scroll_by segs offset limit filter).Pairwise
        (fun a b => a.id < b.id) ∧
      (scroll_by segs offset limit filter).length ≤ limit ∧
      (scroll_by segs offset limit filter).map StoredPoint.id =
        scrollIds segs offset limit filter ∧
      scroll_by segs offset limit filter =
        retrieveModel segs (scrollIds segs offset limit filter) := by
  have hmap := scroll_by_map_id segs offset limit filter
  have hpl : (scroll_by segs offset limit filter).Pairwise
      (fun a b => a.id < b.id) := by
    have := scrollIds_pairwise_lt segs offset limit filter
    rw [← hmap] at this
    exact List.pairwise_map.mp this
  refine ⟨hpl, ?_, hmap, ?_⟩
  · have hlen : (scroll_by segs offset limit filter).length =
        (scrollIds segs offset limit filter).length := by
      rw [← hmap, List.length_map]
    rw [hlen]
    unfold scrollIds
    exact List.length_take_le _ _
  · unfold scroll_by
    refine List.Sorted.insertionSort_eq ?_
    have hsorted : (retrieveModel segs
        (scrollIds segs offset limit filter)).Pairwise
          (fun a b => a.id < b.id) := by
      have := scrollIds_pairwise_lt segs offset limit filter
      rw [← retrieveModel_map_id segs _
        (scrollIds_present segs offset limit filter)] at this
      exact List.pairwise_map.mp this
    exact hsorted.imp (fun hab => Nat.le_of_lt hab)

/-- Filtering a segment with unique point ids yields unique matching
ids. -/
theorem matchingIds_nodup (seg : SegmentData) (offset : Option PointId)
    (filter : Option (StoredPoint → Bool))
    (h : (seg.map StoredPoint.id).Nodup) :
    (matchingIds seg offset filter).Nodup := by
  unfold matchingIds
  exact h.sublist ((List.filter_sublist seg).map StoredPoint.id)

/-- Every id of a segment's unlimited filtered read appears in the
shard-level filtered read. -/
theorem mem_shardReadFiltered_of_mem (segs : List SegmentData)
    (filter : Option (StoredPoint → Bool)) (s : SegmentData) (hs : s ∈ segs)
    (pid : PointId) (hpid : pid ∈ read_filtered s none none filter) :
    pid ∈ shardReadFiltered segs filter := by
  unfold shardReadFiltered
  rw [mem_dedupAdj, (List.perm_insertionSort (· ≤ ·) _).mem_iff]
  exact List.mem_flatMap.mpr ⟨s, hs, hpid⟩

/-- When a segment has unique point ids and the shard-wide distinct
match count fits under `limit`, the per-segment limited read equals the
unlimited one. -/
theorem read_filtered_limit_eq (segs : List SegmentData) (s : SegmentData)
    (hs : s ∈ segs) (filter : Option (StoredPoint → Bool)) (limit : Nat)
    (hnodup : (s.map StoredPoint.id).Nodup)
    (hlimit : (shardReadFiltered segs filter).length ≤ limit) :
    read_filtered s none (some limit) filter =
      read_filtered s none none filter := by
  have hsub : matchingIds s none filter ⊆ shardReadFiltered segs filter := by
    intro pid hpid
    refine mem_shardReadFiltered_of_mem segs filter s hs pid ?_
    unfold read_filtered
    exact (List.perm_insertionSort (· ≤ ·) _).mem_iff.mpr hpid
  have hlen : (matchingIds s none filter).length ≤ limit :=
    le_trans ((matchingIds_nodup s none filter hnodup).subperm hsub).length_le
      hlimit
  have hslen : (List.insertionSort (· ≤ ·)
      (matchingIds s none filter)).length ≤ limit := by
    rw [List.length_insertionSort]
    exact hlen
  unfold read_filtered
  simp [List.take_of_length_le hslen]

/-- `flatMap` congruence over a fixed list. -/
theorem flatMap_congr_mem {α β : Type} (l : List α) (f g : α → List β)
    (h : ∀ a ∈ l, f a = g a) : l.flatMap f = l.flatMap g := by
  induction l with
  | nil => rfl
  | cons a t ih =>
    simp only [List.flatMap_cons]
    rw [h a (by simp), ih (fun b hb => h b (by simp [hb]))]

/-- With per-segment unique ids and a large enough limit, the id list
assembled by `scroll_by` is exactly the shard-level distinct filtered
read. -/
theorem scrollIds_unlimited (segs : List SegmentData)
    (filter : Option (StoredPoint → Bool)) (limit : Nat)
    (hnodup : ∀ s ∈ segs, (s.map StoredPoint.id).Nodup)
    (hlimit : (shardReadFiltered segs filter).length ≤ limit) :
    scrollIds segs none limit filter = shardReadFiltered segs filter := by
  unfold scrollIds
  have hflat : segs.flatMap
      (fun s => read_filtered s none (some limit) filter) =
      segs.flatMap (fun s => read_filtered s none none filter) :=
    flatMap_congr_mem segs _ _
      (fun s hs => read_filtered_limit_eq segs s hs filter limit
        (hnodup s hs) hlimit)
  rw [hflat]
  exact List.take_of_length_le hlimit

/-- C8: `count` with `exact = true` equals the length of an unbounded
scroll with the same filter (any `limit` at least the number of
distinct matching ids behaves as unbounded), while `exact = false`
returns the `exp` field of the summed per-segment cardinality
estimates. The hypothesis that each segment's ids are unique is the
data-model invariant of the holder. -/
theorem count_spec (segs : List SegmentData)
    (ests : List CardinalityEstimation)
    (filter : Option (StoredPoint → Bool)) (limit : Nat)
    (hnodup : ∀ s ∈ segs, (s.map StoredPoint.id).Nodup)
    (hlimit : (shardReadFiltered segs filter).length ≤ limit) :
    shardCount segs ests { exact := true, filter := filter } =
        (scroll_by segs none limit filter).length ∧
      shardCount segs ests { exact := false, filter := filter } =
        (ests.map CardinalityEstimation.exp).sum := by
  constructor
  · have h1 := scroll_by_map_id segs none limit filter
    have hlen : (scroll_by segs none limit filter).length =
        (scrollIds segs none limit filter).length := by
      rw [← h1, List.length_map]
    rw [hlen, scrollIds_unlimited segs filter limit hnodup hlimit]
    rfl
  · rfl

/-- C8 witness: on two concrete one-point segments with no filter,
exact count 2 equals the scroll length, and the inexact count is the
summed `exp` 5. -/
theorem count_spec_witness :
    (∀ s ∈ ([[⟨1, 0, [], []⟩], [⟨2, 0, [], []⟩]] : List SegmentData),
        (s.map StoredPoint.id).Nodup) ∧
      (shardReadFiltered [[⟨1, 0, [], []⟩], [⟨2, 0, [], []⟩]]
          none).length ≤ 5 ∧
      (shardCount [[⟨1, 0, [], []⟩], [⟨2, 0, [], []⟩]]
            [⟨2, 0, 4⟩, ⟨3, 1, 5⟩] { exact := true, filter := none } =
          (scroll_by [[⟨1, 0, [], []⟩], [⟨2, 0, [], []⟩]]
            none 5 none).length ∧
        shardCount [[⟨1, 0, [], []⟩], [⟨2, 0, [], []⟩]]
            [⟨2, 0, 4⟩, ⟨3, 1, 5⟩] { exact := false, filter := none } =
          (([⟨2, 0, 4⟩, ⟨3, 1, 5⟩] :
            List CardinalityEstimation).map CardinalityEstimation.exp).sum) :=
  ⟨by decide, by decide,
    count_spec [[⟨1, 0, [], []⟩], [⟨2, 0, [], []⟩]] [⟨2, 0, 4⟩, ⟨3, 1, 5⟩]
      none 5 (by decide) (by decide)⟩

/-! ### The fixture searcher scenario (`fixtures.rs`) -/

/-- Integer dot product of two vectors. -/
def dot : List Int → List Int → Int
  | x :: xs, y :: ys => x * y + dot xs ys
  | _, _ => 0

/-- The five 4-dimensional points inserted by `build_segment_1`
(vectors upserted at op numbers 1..5, `color` payloads set at op
number 6, whence version 6). -/
def segment1 : SegmentData :=
  [⟨1, 6, [1, 0, 1, 1], [("color", ["red"])]⟩,
   ⟨2, 6, [1, 0, 1, 0], [("color", ["red"])]⟩,
   ⟨3, 6, [1, 1, 1, 1], [("color", ["blue"])]⟩,
   ⟨4, 6, [1, 1, 0, 1], [("color", ["red", "blue"])]⟩,
   ⟨5, 6, [1, 0, 0, 0], [("color", ["red", "blue"])]⟩]

/-- Modelled from the spec: the searcher built by `build_searcher` over
a segment with Dot distance — score every point, sort descending by
score breaking ties by ascending point id, and keep the top `top`
results (the searcher implementation lives outside the provided
sources). -/
def searchTopK (seg : SegmentData) (query : List Int) (top : Nat) :
    List (PointId × Int) :=
  (List.insertionSort
    (fun a b : PointId × Int => b.2 < a.2 ∨ (a.2 = b.2 ∧ a.1 ≤ b.1))
    (seg.map (fun p => (p.id, dot p.vector query)))).take top

/-- C9: searching the `build_segment_1` fixture with vector
`[1,1,1,1]` (Dot distance) and top 3 returns exactly the ids
`{3, 4, 1}`, in the tie-break order `[3, 1, 4]` (ids 1 and 4 tie at
score 3, smallest id first). -/
theorem fixture_search_spec :
    (searchTopK segment1 [1, 1, 1, 1] 3).map Prod.fst = [3, 1, 4] ∧
      ((searchTopK segment1 [1, 1, 1, 1] 3).map Prod.fst).toFinset =
        ({1, 3, 4} : Finset PointId) := by
  constructor
  · decide
  · decide

end QdrantShard
